import Mathlib

/-!
Shallow embedding of the `fuzzy_string_distance` Rust crate (src/lib.rs).

Strings are modelled as their sequence of Unicode codepoints (`List Char`,
mirroring `str::chars`).  Rust's panicking operations — indexing into a
`Vec<usize>` and `Option::unwrap` on `.chars().skip(k).next()` — are modelled
by threading `Option`: any out-of-bounds access or failed unwrap yields
`none`, so "the function never panics" becomes "the function returns `some`".
-/

namespace Fuzzy

/-- Model of Rust `char::to_ascii_lowercase` (used bytewise by
`str::to_ascii_lowercase`, which on valid UTF-8 acts exactly codepointwise):
ASCII uppercase letters are shifted down by adding 32, all else unchanged. -/
def char_to_ascii_lowercase (c : Char) : Char :=
  if 'A' ≤ c ∧ c ≤ 'Z' then Char.ofNat (c.toNat + 32) else c

/-- Model of Rust `str::to_ascii_lowercase` on the codepoint sequence. -/
def to_ascii_lowercase (s : List Char) : List Char :=
  s.map char_to_ascii_lowercase

/-- The spec's description of the case fold, written from its words: only
ASCII letters `A`-`Z` are mapped to `a`-`z`; every other codepoint (all
non-ASCII ones included) is left unchanged. -/
def lowercase_ascii (c : Char) : Char :=
  if 'A' ≤ c ∧ c ≤ 'Z' then Char.ofNat (c.toNat - 'A'.toNat + 'a'.toNat)
  else c

/-- Model of Rust `Iterator::min` over a vector of `usize`. -/
def iterMin : List Nat → Option Nat
  | [] => none
  | x :: xs =>
    match iterMin xs with
    | none => some x
    | some m => some (min x m)

/-- The inner `for j in 0..target_chars` loop shared verbatim by
`levenshtein_distance` and `local_levenshtein_distance` in src/lib.rs
(lines 62-95 and 189-222).  `edit_distances` is the previous row,
`new_edit_distances` the row being filled in; `j` is the current column and
`fuel` the number of remaining iterations (`target.length - j`).  Vector
reads, the two `unwrap`s on the `i`-th source and `j`-th target codepoint
(`.chars().skip(k).next().unwrap()`), and the bounds check of the write
`new_edit_distances[j + 1] = …` are all modelled in `Option`. -/
def innerLoop (source target : List Char) (i : Nat) (edit_distances : List Nat) :
    Nat → Nat → List Nat → Option (List Nat)
  | _, 0, new_edit_distances => some new_edit_distances
  | j, fuel + 1, new_edit_distances => do
    let d ← edit_distances[j + 1]?
    let deletion := d + 1
    let n ← new_edit_distances[j]?
    let insertion := n + 1
    let source_char ← source[i]?
    let target_char ← target[j]?
    let e ← edit_distances[j]?
    let substitution := if source_char = target_char then e else e + 1
    let _ ← new_edit_distances[j + 1]?
    innerLoop source target i edit_distances (j + 1) fuel
      (new_edit_distances.set (j + 1)
        (min deletion (min insertion substitution)))

/-- The outer `for i in 0..source_chars` loop shared by both distance
functions (src/lib.rs lines 53-98 and 180-225).  Each iteration allocates
`vec![0; target_chars + 1]`, sets entry `0` to `i + 1`, runs the inner loop,
and replaces the previous row. -/
def outerLoop (source target : List Char) :
    Nat → Nat → List Nat → Option (List Nat)
  | _, 0, edit_distances => some edit_distances
  | i, fuel + 1, edit_distances => do
    let new_edit_distances :=
      (List.replicate (target.length + 1) 0).set 0 (i + 1)
    let row ← innerLoop source target i edit_distances 0 target.length
      new_edit_distances
    outerLoop source target (i + 1) fuel row

/-- Embedding of `levenshtein_distance` (src/lib.rs lines 25-102).
The initial row `vec![0; target_chars + 1]` re-assigned by
`for (i, x) in edit_distances.iter_mut().enumerate() { *x = i }` is
`List.range (target_chars + 1)`; the result is the final row's last entry. -/
def levenshtein_distance (source target : List Char) : Option Nat :=
  let target_chars := target.length
  let source_chars := source.length
  if source.isEmpty then some target_chars
  else if target.isEmpty then some source_chars
  else do
    let edit_distances := List.range (target_chars + 1)
    let final ← outerLoop source target 0 source_chars edit_distances
    final[target_chars]?

/-- Embedding of `levenshtein_distance_ignore_ascii_case`
(src/lib.rs lines 118-120). -/
def levenshtein_distance_ignore_ascii_case (source target : List Char) :
    Option Nat :=
  levenshtein_distance (to_ascii_lowercase source) (to_ascii_lowercase target)

/-- Embedding of `local_levenshtein_distance` (src/lib.rs lines 150-233).
The initial row stays all zeros, and the result is
`edit_distances.into_iter().min().unwrap()` on the final row. -/
def local_levenshtein_distance (source target : List Char) : Option Nat :=
  let target_chars := target.length
  let source_chars := source.length
  if source.isEmpty then some 0
  else if target.isEmpty then some source_chars
  else do
    let edit_distances := List.replicate (target_chars + 1) 0
    let final ← outerLoop source target 0 source_chars edit_distances
    iterMin final

/-- Embedding of `local_levenshtein_distance_ignore_ascii_case`
(src/lib.rs lines 264-266). -/
def local_levenshtein_distance_ignore_ascii_case (source target : List Char) :
    Option Nat :=
  local_levenshtein_distance (to_ascii_lowercase source)
    (to_ascii_lowercase target)

/-- Substitution cost of the reference matrix: `0` if the `i`-th codepoint of
`source` equals the `j`-th codepoint of `target`, else `1`. -/
def levCost (source target : List Char) (i j : Nat) : Nat :=
  if source[i]? = target[j]? then 0 else 1

/-- The reference dynamic-programming Levenshtein matrix:
`A[0][j] = j`, `A[i][0] = i`, and
`A[i][j] = min (A[i-1][j]+1) (min (A[i][j-1]+1) (A[i-1][j-1] + cost))`. -/
def levMatrix (source target : List Char) (i j : Nat) : Nat :=
  match i, j with
  | 0, j => j
  | i + 1, 0 => i + 1
  | i + 1, j + 1 =>
    min (levMatrix source target i (j + 1) + 1)
      (min (levMatrix source target (i + 1) j + 1)
        (levMatrix source target i j + levCost source target i j))
termination_by (i, j)

/-- The reference matrix of the local variant: identical recurrence, but the
first row is all zeros (any prefix of `target` may be skipped for free). -/
def localLevMatrix (source target : List Char) (i j : Nat) : Nat :=
  match i, j with
  | 0, _ => 0
  | i + 1, 0 => i + 1
  | i + 1, j + 1 =>
    min (localLevMatrix source target i (j + 1) + 1)
      (min (localLevMatrix source target (i + 1) j + 1)
        (localLevMatrix source target i j + levCost source target i j))
termination_by (i, j)

/-! ### Recurrence lemmas for the reference matrices -/

lemma levMatrix_zero_left (s t : List Char) (j : Nat) :
    levMatrix s t 0 j = j := by
  simp [levMatrix]

lemma levMatrix_zero_right (s t : List Char) (i : Nat) :
    levMatrix s t i 0 = i := by
  cases i <;> simp [levMatrix]

lemma levMatrix_succ_succ (s t : List Char) (i j : Nat) :
    levMatrix s t (i + 1) (j + 1) =
      min (levMatrix s t i (j + 1) + 1)
        (min (levMatrix s t (i + 1) j + 1)
          (levMatrix s t i j + levCost s t i j)) := by
  rw [levMatrix]

lemma localLevMatrix_zero_left (s t : List Char) (j : Nat) :
    localLevMatrix s t 0 j = 0 := by
  simp [localLevMatrix]

lemma localLevMatrix_zero_right (s t : List Char) (i : Nat) :
    localLevMatrix s t i 0 = i := by
  cases i <;> simp [localLevMatrix]

lemma localLevMatrix_succ_succ (s t : List Char) (i j : Nat) :
    localLevMatrix s t (i + 1) (j + 1) =
      min (localLevMatrix s t i (j + 1) + 1)
        (min (localLevMatrix s t (i + 1) j + 1)
          (localLevMatrix s t i j + levCost s t i j)) := by
  rw [localLevMatrix]

/-! ### Facts about `iterMin` -/

lemma iterMin_cons_none (x : Nat) (xs : List Nat) (hxs : iterMin xs = none) :
    iterMin (x :: xs) = some x := by
  simp [iterMin, hxs]

lemma iterMin_cons_some (x : Nat) (xs : List Nat) (m : Nat)
    (hxs : iterMin xs = some m) : iterMin (x :: xs) = some (min x m) := by
  simp [iterMin, hxs]

lemma iterMin_isSome (l : List Nat) (h : l ≠ []) : ∃ m, iterMin l = some m := by
  cases l with
  | nil => exact absurd rfl h
  | cons x xs =>
    cases hxs : iterMin xs with
    | none => exact ⟨x, iterMin_cons_none x xs hxs⟩
    | some m => exact ⟨min x m, iterMin_cons_some x xs m hxs⟩

lemma iterMin_mem (l : List Nat) (m : Nat) (h : iterMin l = some m) : m ∈ l := by
  induction l generalizing m with
  | nil => simp [iterMin] at h
  | cons x xs ih =>
    cases hxs : iterMin xs with
    | none =>
      rw [iterMin_cons_none x xs hxs] at h
      injection h with h
      subst h
      exact List.mem_cons_self x xs
    | some m' =>
      rw [iterMin_cons_some x xs m' hxs] at h
      injection h with h
      rcases Nat.le_total x m' with hle | hle
      · rw [Nat.min_eq_left hle] at h
        subst h
        exact List.mem_cons_self x xs
      · rw [Nat.min_eq_right hle] at h
        subst h
        exact List.mem_cons_of_mem x (ih m' hxs)

lemma iterMin_le (l : List Nat) (m : Nat) (h : iterMin l = some m) :
    ∀ x ∈ l, m ≤ x := by
  induction l generalizing m with
  | nil => simp
  | cons x xs ih =>
    intro y hy
    cases hxs : iterMin xs with
    | none =>
      cases xs with
      | nil =>
        rw [iterMin_cons_none x [] hxs] at h
        injection h with h
        rcases List.mem_cons.1 hy with rfl | hy
        · omega
        · simp at hy
      | cons a as =>
        rcases iterMin_isSome (a :: as) (by simp) with ⟨m', hm'⟩
        rw [hm'] at hxs
        cases hxs
    | some m' =>
      rw [iterMin_cons_some x xs m' hxs] at h
      injection h with h
      rcases List.mem_cons.1 hy with rfl | hy
      · omega
      · have := ih m' hxs y hy
        omega

/-! ### Loop invariants: the rolling rows compute the reference matrix

Both Rust functions share the same inner and outer loop; only the first row
and the final extraction differ.  We therefore prove the loops correct
against any matrix `A` satisfying the shared recurrence. -/

lemma innerLoop_spec (source target : List Char) (A : Nat → Nat → Nat)
    (hArec : ∀ i j, A (i + 1) (j + 1) =
      min (A i (j + 1) + 1)
        (min (A (i + 1) j + 1) (A i j + levCost source target i j)))
    (i : Nat) (hi : i < source.length) (prev : List Nat)
    (hprevlen : prev.length = target.length + 1)
    (hprev : ∀ k, k ≤ target.length → prev[k]? = some (A i k)) :
    ∀ fuel j new_r, j + fuel = target.length →
      new_r.length = target.length + 1 →
      (∀ k, k ≤ j → new_r[k]? = some (A (i + 1) k)) →
      ∃ out, innerLoop source target i prev j fuel new_r = some out ∧
        out.length = target.length + 1 ∧
        (∀ k, k ≤ target.length → out[k]? = some (A (i + 1) k)) := by
  intro fuel
  induction fuel with
  | zero =>
    intro j new_r hj hlen hnew
    refine ⟨new_r, rfl, hlen, ?_⟩
    intro k hk
    exact hnew k (by omega)
  | succ fuel ih =>
    intro j new_r hj hlen hnew
    have hjlt : j < target.length := by omega
    have h1 : prev[j + 1]? = some (A i (j + 1)) := hprev (j + 1) (by omega)
    have h2 : new_r[j]? = some (A (i + 1) j) := hnew j (by omega)
    have h3 : source[i]? = some source[i] := List.getElem?_eq_getElem hi
    have h4 : target[j]? = some (target[j]) :=
      List.getElem?_eq_getElem hjlt
    have h5 : prev[j]? = some (A i j) := hprev j (by omega)
    have hj1len : j + 1 < new_r.length := by omega
    have h6 : new_r[j + 1]? = some new_r[j + 1] :=
      List.getElem?_eq_getElem hj1len
    have hcost : (if source[i] = target[j] then A i j else A i j + 1) =
        A i j + levCost source target i j := by
      rw [levCost, h3, h4]
      simp only [Option.some.injEq]
      by_cases hc : source[i] = target[j] <;> simp [hc]
    have hstep : innerLoop source target i prev j (fuel + 1) new_r =
        innerLoop source target i prev (j + 1) fuel
          (new_r.set (j + 1)
            (min (A i (j + 1) + 1)
              (min (A (i + 1) j + 1) (A i j + levCost source target i j)))) := by
      rw [innerLoop]
      rw [h1, h2, h3, h4, h5, h6]
      simp only [Option.bind_eq_bind, Option.some_bind]
      rw [hcost]
    rw [hstep, ← hArec i j]
    apply ih (j + 1) _ (by omega) (by simpa using hlen)
    intro k hk
    rcases Nat.lt_or_ge k (j + 1) with hklt | hkge
    · rw [List.getElem?_set_ne (by omega)]
      exact hnew k (by omega)
    · have hkeq : k = j + 1 := by omega
      subst hkeq
      rw [List.getElem?_set_self hj1len, hArec i j]

lemma outerLoop_spec (source target : List Char) (A : Nat → Nat → Nat)
    (hA0 : ∀ i, A (i + 1) 0 = i + 1)
    (hArec : ∀ i j, A (i + 1) (j + 1) =
      min (A i (j + 1) + 1)
        (min (A (i + 1) j + 1) (A i j + levCost source target i j))) :
    ∀ fuel i prev, i + fuel = source.length →
      prev.length = target.length + 1 →
      (∀ k, k ≤ target.length → prev[k]? = some (A i k)) →
      ∃ out, outerLoop source target i fuel prev = some out ∧
        out.length = target.length + 1 ∧
        (∀ k, k ≤ target.length → out[k]? = some (A source.length k)) := by
  intro fuel
  induction fuel with
  | zero =>
    intro i prev hi hlen hprev
    have : i = source.length := by omega
    subst this
    exact ⟨prev, rfl, hlen, hprev⟩
  | succ fuel ih =>
    intro i prev hi hlen hprev
    have hilt : i < source.length := by omega
    have hnew0len :
        ((List.replicate (target.length + 1) 0).set 0 (i + 1)).length =
          target.length + 1 := by
      simp
    have hnew0 : ∀ k, k ≤ 0 →
        ((List.replicate (target.length + 1) 0).set 0 (i + 1))[k]? =
          some (A (i + 1) k) := by
      intro k hk
      have : k = 0 := by omega
      subst this
      rw [List.getElem?_set_self (by simp), hA0 i]
    rcases innerLoop_spec source target A hArec i hilt prev hlen hprev
        target.length 0 _ (by omega) hnew0len hnew0 with ⟨row, hrow, hrowlen, hrowval⟩
    rcases ih (i + 1) row (by omega) hrowlen hrowval with ⟨out, hout, houtlen, houtval⟩
    refine ⟨out, ?_, houtlen, houtval⟩
    rw [outerLoop, hrow]
    exact hout

/-! ### The code functions expressed through the reference matrices -/

lemma lev_general (s t : List Char) (hs : s ≠ []) (ht : t ≠ []) :
    levenshtein_distance s t = some (levMatrix s t s.length t.length) := by
  have hs0 : s.isEmpty = false := List.isEmpty_eq_false.mpr hs
  have ht0 : t.isEmpty = false := List.isEmpty_eq_false.mpr ht
  have hinit : ∀ k, k ≤ t.length →
      (List.range (t.length + 1))[k]? = some (levMatrix s t 0 k) := by
    intro k hk
    rw [List.getElem?_range (by omega), levMatrix_zero_left]
  rcases outerLoop_spec s t (levMatrix s t)
      (fun i => levMatrix_zero_right s t (i + 1)) (levMatrix_succ_succ s t)
      s.length 0 (List.range (t.length + 1)) (by omega) (by simp) hinit
    with ⟨out, hout, hlen, hval⟩
  simp only [levenshtein_distance, hs0, ht0, Bool.false_eq_true, if_false]
  rw [hout]
  simp only [Option.bind_eq_bind, Option.some_bind]
  exact hval t.length (by omega)

lemma lev_eq_matrix (s t : List Char) :
    levenshtein_distance s t = some (levMatrix s t s.length t.length) := by
  by_cases hs : s = []
  · subst hs
    simp [levenshtein_distance, levMatrix_zero_left]
  · by_cases ht : t = []
    · subst ht
      have hs0 : s.isEmpty = false := List.isEmpty_eq_false.mpr hs
      simp [levenshtein_distance, hs0, levMatrix_zero_right]
    · exact lev_general s t hs ht

lemma local_general (s t : List Char) (hs : s ≠ []) (ht : t ≠ []) :
    ∃ d, local_levenshtein_distance s t = some d ∧
      (∃ j, j ≤ t.length ∧ d = localLevMatrix s t s.length j) ∧
      (∀ j, j ≤ t.length → d ≤ localLevMatrix s t s.length j) := by
  have hs0 : s.isEmpty = false := List.isEmpty_eq_false.mpr hs
  have ht0 : t.isEmpty = false := List.isEmpty_eq_false.mpr ht
  have hinit : ∀ k, k ≤ t.length →
      (List.replicate (t.length + 1) 0)[k]? =
        some (localLevMatrix s t 0 k) := by
    intro k hk
    rw [List.getElem?_replicate_of_lt (by omega), localLevMatrix_zero_left]
  rcases outerLoop_spec s t (localLevMatrix s t)
      (fun i => localLevMatrix_zero_right s t (i + 1))
      (localLevMatrix_succ_succ s t)
      s.length 0 (List.replicate (t.length + 1) 0) (by omega) (by simp) hinit
    with ⟨out, hout, hlen, hval⟩
  have houtne : out ≠ [] := by
    intro h
    rw [h] at hlen
    simp at hlen
  rcases iterMin_isSome out houtne with ⟨m, hm⟩
  refine ⟨m, ?_, ?_, ?_⟩
  · simp only [local_levenshtein_distance, hs0, ht0, Bool.false_eq_true,
      if_false]
    rw [hout]
    simp only [Option.bind_eq_bind, Option.some_bind]
    exact hm
  · rcases List.getElem_of_mem (iterMin_mem out m hm) with ⟨n, hn, hval'⟩
    refine ⟨n, by omega, ?_⟩
    have := hval n (by omega)
    rw [List.getElem?_eq_getElem hn, hval'] at this
    exact Option.some.inj this
  · intro j hj
    exact iterMin_le out m hm _ (List.getElem?_mem (hval j hj))

/-- `local_levenshtein_distance` always returns `some`, with the two
degenerate short-circuits giving their documented values. -/
lemma local_isSome (s t : List Char) :
    ∃ d, local_levenshtein_distance s t = some d := by
  by_cases hs : s = []
  · exact ⟨0, by simp [hs, local_levenshtein_distance]⟩
  · by_cases ht : t = []
    · refine ⟨s.length, ?_⟩
      have hs0 : s.isEmpty = false := List.isEmpty_eq_false.mpr hs
      simp [ht, local_levenshtein_distance, hs0]
    · rcases local_general s t hs ht with ⟨d, hd, _⟩
      exact ⟨d, hd⟩

/-! ### Mathematics of the reference matrices -/

lemma levCost_le_one (s t : List Char) (i j : Nat) : levCost s t i j ≤ 1 := by
  rw [levCost]
  split <;> omega

lemma levMatrix_le_max (s t : List Char) :
    ∀ i j, levMatrix s t i j ≤ max i j := by
  intro i
  induction i with
  | zero =>
    intro j
    rw [levMatrix_zero_left]
    omega
  | succ i ih =>
    intro j
    cases j with
    | zero =>
      rw [levMatrix_zero_right]
      omega
    | succ j =>
      rw [levMatrix_succ_succ]
      have h1 := ih j
      have h2 := levCost_le_one s t i j
      omega

lemma levMatrix_lower (s t : List Char) :
    ∀ i j, i - j ≤ levMatrix s t i j ∧ j - i ≤ levMatrix s t i j := by
  intro i
  induction i with
  | zero =>
    intro j
    rw [levMatrix_zero_left]
    omega
  | succ i ih =>
    intro j
    induction j with
    | zero =>
      rw [levMatrix_zero_right]
      omega
    | succ j ihj =>
      rw [levMatrix_succ_succ]
      have h1 := ih (j + 1)
      have h2 := ih j
      have h3 := ihj
      omega

lemma levMatrix_symm (s t : List Char) :
    ∀ i j, levMatrix s t i j = levMatrix t s j i := by
  intro i
  induction i with
  | zero =>
    intro j
    rw [levMatrix_zero_left, levMatrix_zero_right]
  | succ i ih =>
    intro j
    induction j with
    | zero =>
      rw [levMatrix_zero_right, levMatrix_zero_left]
    | succ j ihj =>
      rw [levMatrix_succ_succ, levMatrix_succ_succ]
      have hcost : levCost s t i j = levCost t s j i := by
        rw [levCost, levCost]
        by_cases h : s[i]? = t[j]?
        · rw [if_pos h, if_pos h.symm]
        · rw [if_neg h, if_neg (fun hh => h hh.symm)]
      rw [ih (j + 1), ih j, ihj, hcost]
      omega

lemma localLevMatrix_le_left (s t : List Char) :
    ∀ i j, localLevMatrix s t i j ≤ i := by
  intro i
  induction i with
  | zero =>
    intro j
    rw [localLevMatrix_zero_left]
  | succ i ih =>
    intro j
    cases j with
    | zero =>
      rw [localLevMatrix_zero_right]
    | succ j =>
      rw [localLevMatrix_succ_succ]
      have h1 := ih (j + 1)
      omega

lemma localLevMatrix_le_levMatrix (s t : List Char) :
    ∀ i j, localLevMatrix s t i j ≤ levMatrix s t i j := by
  intro i
  induction i with
  | zero =>
    intro j
    rw [localLevMatrix_zero_left]
    omega
  | succ i ih =>
    intro j
    induction j with
    | zero =>
      rw [localLevMatrix_zero_right, levMatrix_zero_right]
    | succ j ihj =>
      rw [localLevMatrix_succ_succ, levMatrix_succ_succ]
      have h1 := ih (j + 1)
      have h2 := ih j
      have h3 := ihj
      omega

lemma levMatrix_succ_left_le (s t : List Char) (i j : Nat) :
    levMatrix s t (i + 1) j ≤ levMatrix s t i j + 1 := by
  cases j with
  | zero =>
    rw [levMatrix_zero_right, levMatrix_zero_right]
  | succ j =>
    rw [levMatrix_succ_succ]
    omega

lemma levMatrix_succ_right_le (s t : List Char) (i j : Nat) :
    levMatrix s t i (j + 1) ≤ levMatrix s t i j + 1 := by
  cases i with
  | zero =>
    rw [levMatrix_zero_left, levMatrix_zero_left]
  | succ i =>
    rw [levMatrix_succ_succ]
    omega

/-- The matrix entry at column `j` only depends on the first `j` codepoints
of the target. -/
lemma levMatrix_append (s u v : List Char) :
    ∀ i j, j ≤ u.length → levMatrix s (u ++ v) i j = levMatrix s u i j := by
  intro i
  induction i with
  | zero =>
    intro j hj
    rw [levMatrix_zero_left, levMatrix_zero_left]
  | succ i ih =>
    intro j
    induction j with
    | zero =>
      intro hj
      rw [levMatrix_zero_right, levMatrix_zero_right]
    | succ j ihj =>
      intro hj
      rw [levMatrix_succ_succ, levMatrix_succ_succ]
      have hcost : levCost s (u ++ v) i j = levCost s u i j := by
        rw [levCost, levCost, List.getElem?_append_left (by omega)]
      rw [ih (j + 1) hj, ih j (by omega), ihj (by omega), hcost]

/-! ### Substring characterisation of the local matrix -/

/-- When `source` occurs verbatim at position `p.length` of `target`, the
local matrix is zero along the corresponding diagonal. -/
lemma localLevMatrix_diag_zero (s p q : List Char) :
    ∀ i, i ≤ s.length →
      localLevMatrix s (p ++ (s ++ q)) i (p.length + i) = 0 := by
  intro i
  induction i with
  | zero =>
    intro _
    rw [localLevMatrix_zero_left]
  | succ i ih =>
    intro hi
    have hcost : levCost s (p ++ (s ++ q)) i (p.length + i) = 0 := by
      rw [levCost, List.getElem?_append_right (by omega)]
      have : p.length + i - p.length = i := by omega
      rw [this, List.getElem?_append_left (by omega), if_pos rfl]
    have h0 := ih (by omega)
    show localLevMatrix s (p ++ (s ++ q)) (i + 1) ((p.length + i) + 1) = 0
    rw [localLevMatrix_succ_succ, hcost, h0]
    omega

/-- First direction: matching against the substring of `target` that starts
at position `p.length` and spans `u` is available to the local matrix, so the
local matrix is bounded by the global matrix against `u`. -/
lemma localLevMatrix_le_seg (s p u q : List Char) :
    ∀ i j, j ≤ u.length →
      localLevMatrix s (p ++ (u ++ q)) i (p.length + j) ≤ levMatrix s u i j := by
  intro i
  induction i with
  | zero =>
    intro j hj
    rw [localLevMatrix_zero_left]
    omega
  | succ i ih =>
    intro j
    induction j with
    | zero =>
      intro hj
      rw [Nat.add_zero, levMatrix_zero_right]
      exact localLevMatrix_le_left s _ (i + 1) p.length
    | succ j ihj =>
      intro hj
      have hcost : levCost s (p ++ (u ++ q)) i (p.length + j) =
          levCost s u i j := by
        rw [levCost, levCost, List.getElem?_append_right (by omega)]
        have : p.length + j - p.length = j := by omega
        rw [this, List.getElem?_append_left (by omega)]
      have h1 : localLevMatrix s (p ++ (u ++ q)) i ((p.length + j) + 1) ≤
          levMatrix s u i (j + 1) := ih (j + 1) hj
      have h2 := ih j (by omega)
      have h3 := ihj (by omega)
      show localLevMatrix s (p ++ (u ++ q)) (i + 1) ((p.length + j) + 1) ≤
        levMatrix s u (i + 1) (j + 1)
      rw [localLevMatrix_succ_succ, levMatrix_succ_succ, hcost]
      omega

/-- Second direction: every entry of the local matrix dominates the global
matrix against some segment of the target ending at that column. -/
lemma exists_seg_le_localLevMatrix (s t : List Char) :
    ∀ i j, j ≤ t.length → ∃ a, a ≤ j ∧
      levMatrix s ((t.take j).drop a) i (j - a) ≤ localLevMatrix s t i j := by
  intro i
  induction i with
  | zero =>
    intro j hj
    refine ⟨j, le_rfl, ?_⟩
    rw [levMatrix_zero_left, localLevMatrix_zero_left]
    omega
  | succ i ih =>
    intro j
    induction j with
    | zero =>
      intro hj
      refine ⟨0, le_rfl, ?_⟩
      rw [levMatrix_zero_right, localLevMatrix_zero_right]
    | succ j ihj =>
      intro hj
      have hjt : j < t.length := by omega
      have hseg : ∀ a, a ≤ j →
          (t.take (j + 1)).drop a = (t.take j).drop a ++ [t[j]] := by
        intro a ha
        rw [List.take_succ, List.getElem?_eq_getElem hjt]
        rw [List.drop_append_of_le_length (by simp; omega)]
        rfl
      have hseglen : ∀ a, a ≤ j → ((t.take j).drop a).length = j - a := by
        intro a ha
        simp
        omega
      have hd := localLevMatrix_succ_succ s t i j
      have hcases : localLevMatrix s t (i + 1) (j + 1) =
            localLevMatrix s t i (j + 1) + 1 ∨
          localLevMatrix s t (i + 1) (j + 1) =
            localLevMatrix s t (i + 1) j + 1 ∨
          localLevMatrix s t (i + 1) (j + 1) =
            localLevMatrix s t i j + levCost s t i j := by
        omega
      rcases hcases with hcase | hcase | hcase
      · rcases ih (j + 1) hj with ⟨a, ha, hle⟩
        refine ⟨a, ha.trans (by omega), ?_⟩
        calc levMatrix s ((t.take (j + 1)).drop a) (i + 1) (j + 1 - a) ≤
            levMatrix s ((t.take (j + 1)).drop a) i (j + 1 - a) + 1 :=
              levMatrix_succ_left_le _ _ i _
          _ ≤ localLevMatrix s t i (j + 1) + 1 := by omega
          _ = localLevMatrix s t (i + 1) (j + 1) := hcase.symm
      · rcases ihj (by omega) with ⟨a, ha, hle⟩
        refine ⟨a, by omega, ?_⟩
        rw [hseg a ha]
        have hsub : j + 1 - a = (j - a) + 1 := by omega
        rw [hsub]
        calc levMatrix s ((t.take j).drop a ++ [t[j]]) (i + 1) ((j - a) + 1) ≤
            levMatrix s ((t.take j).drop a ++ [t[j]]) (i + 1) (j - a) + 1 :=
              levMatrix_succ_right_le _ _ (i + 1) (j - a)
          _ = levMatrix s ((t.take j).drop a) (i + 1) (j - a) + 1 := by
              rw [levMatrix_append s _ _ (i + 1) (j - a)
                (by rw [hseglen a ha])]
          _ ≤ localLevMatrix s t (i + 1) j + 1 := by omega
          _ = localLevMatrix s t (i + 1) (j + 1) := hcase.symm
      · rcases ih j (by omega) with ⟨a, ha, hle⟩
        refine ⟨a, by omega, ?_⟩
        rw [hseg a ha]
        have hsub : j + 1 - a = (j - a) + 1 := by omega
        rw [hsub]
        have hcost : levCost s ((t.take j).drop a ++ [t[j]]) i (j - a) =
            levCost s t i j := by
          rw [levCost, levCost,
            List.getElem?_append_right (by rw [hseglen a ha]),
            List.getElem?_eq_getElem hjt]
          rw [hseglen a ha]
          simp
        calc levMatrix s ((t.take j).drop a ++ [t[j]]) (i + 1) ((j - a) + 1) ≤
            levMatrix s ((t.take j).drop a ++ [t[j]]) i (j - a) +
              levCost s ((t.take j).drop a ++ [t[j]]) i (j - a) := by
              rw [levMatrix_succ_succ]
              omega
          _ = levMatrix s ((t.take j).drop a) i (j - a) + levCost s t i j := by
              rw [hcost, levMatrix_append s _ _ i (j - a)
                (by rw [hseglen a ha])]
          _ ≤ localLevMatrix s t i j + levCost s t i j := by omega
          _ = localLevMatrix s t (i + 1) (j + 1) := hcase.symm

/-! ### Master characterisation of the local distance -/

/-- Every segment `(t.take j).drop a` is a contiguous substring of `t`. -/
lemma seg_isInfix (t : List Char) (a j : Nat) : ((t.take j).drop a) <:+: t :=
  ⟨(t.take j).take a, t.drop j, by
    rw [List.take_append_drop, List.take_append_drop]⟩

/-- A list that is a contiguous substring of `[]` is `[]`. -/
lemma eq_nil_of_isInfix_nil (u : List Char) (hu : u <:+: ([] : List Char)) :
    u = [] := by
  obtain ⟨p, r, hpr⟩ := hu
  rcases List.append_eq_nil.mp hpr with ⟨hpu, -⟩
  exact (List.append_eq_nil.mp hpu).2

lemma local_characterization (s t : List Char) :
    ∃ d, local_levenshtein_distance s t = some d ∧
      (∃ u, u <:+: t ∧ levMatrix s u s.length u.length = d) ∧
      (∀ u, u <:+: t → d ≤ levMatrix s u s.length u.length) ∧
      (∃ j, j ≤ t.length ∧ d = localLevMatrix s t s.length j) ∧
      (∀ j, j ≤ t.length → d ≤ localLevMatrix s t s.length j) := by
  by_cases hs : s = []
  · subst hs
    refine ⟨0, by simp [local_levenshtein_distance], ?_, ?_, ?_, ?_⟩
    · exact ⟨[], ⟨[], t, by simp⟩, by simp [levMatrix_zero_left]⟩
    · intro u hu
      omega
    · exact ⟨0, by omega, by simp [localLevMatrix_zero_left]⟩
    · intro j hj
      omega
  · by_cases ht : t = []
    · subst ht
      have hs0 : s.isEmpty = false := List.isEmpty_eq_false.mpr hs
      refine ⟨s.length, by simp [local_levenshtein_distance, hs0], ?_, ?_, ?_, ?_⟩
      · exact ⟨[], ⟨[], [], by simp⟩, by simp [levMatrix_zero_right]⟩
      · intro u hu
        rw [eq_nil_of_isInfix_nil u hu]
        simp [levMatrix_zero_right]
      · exact ⟨0, by omega, by rw [localLevMatrix_zero_right]⟩
      · intro j hj
        have : j = 0 := by simpa using hj
        subst this
        rw [localLevMatrix_zero_right]
    · rcases local_general s t hs ht with ⟨d, hd, ⟨j₀, hj₀, hdj⟩, hmin⟩
      have hub : ∀ u, u <:+: t → d ≤ levMatrix s u s.length u.length := by
        intro u hu
        obtain ⟨p, r, hpr⟩ := hu
        have hlen : p.length + u.length ≤ t.length := by
          rw [← hpr]
          simp
        have h1 := hmin (p.length + u.length) hlen
        have h2 := localLevMatrix_le_seg s p u r s.length u.length (by omega)
        rw [← List.append_assoc, hpr] at h2
        omega
      refine ⟨d, hd, ?_, hub, ⟨j₀, hj₀, hdj⟩, hmin⟩
      rcases exists_seg_le_localLevMatrix s t s.length j₀ hj₀
        with ⟨a, ha, hle⟩
      refine ⟨(t.take j₀).drop a, seg_isInfix t a j₀, ?_⟩
      have hlen : ((t.take j₀).drop a).length = j₀ - a := by
        simp
        omega
      have hle' : levMatrix s ((t.take j₀).drop a) s.length
          ((t.take j₀).drop a).length ≤ d := by
        rw [hlen, hdj]
        exact hle
      have := hub ((t.take j₀).drop a) (seg_isInfix t a j₀)
      omega

/-! ### Remaining helper lemmas for the claims -/

lemma char_fold_eq (c : Char) : char_to_ascii_lowercase c = lowercase_ascii c := by
  rw [char_to_ascii_lowercase, lowercase_ascii]
  by_cases h : 'A' ≤ c ∧ c ≤ 'Z'
  · rw [if_pos h, if_pos h]
    have h1 : 65 ≤ c.toNat := h.1
    have h2 : 'A'.toNat = 65 := rfl
    have h3 : 'a'.toNat = 97 := rfl
    congr 1
    omega
  · rw [if_neg h, if_neg h]

lemma to_ascii_lowercase_eq_map (s : List Char) :
    to_ascii_lowercase s = s.map lowercase_ascii := by
  rw [to_ascii_lowercase]
  exact List.map_congr_left fun c _ => char_fold_eq c

/-! ### The claims -/

/-- C1: for every pair of codepoint sequences, `levenshtein_distance`
returns (without failing) exactly the value `A[|source|][|target|]` of the
reference dynamic-programming matrix with `A[0][j] = j`, `A[i][0] = i` and
`A[i][j] = min (A[i-1][j]+1) (min (A[i][j-1]+1) (A[i-1][j-1]+cost))`, the
cost comparing the codepoints of `source` and `target`. -/
theorem C1_lev_eq_reference_matrix (source target : List Char) :
    levenshtein_distance source target =
      some (levMatrix source target source.length target.length) :=
  lev_eq_matrix source target

/-- C2: `local_levenshtein_distance source target` is the minimum over all
contiguous codepoint substrings `u` of `target` of the global Levenshtein
distance between `source` and `u`: it is a lower bound for every such
substring (here an arbitrary one, `u`), and it is attained by some substring
`v`; equivalently it is the minimum of the final row of the all-zero-first-row
matrix: it is bounded by every entry of that row (here an arbitrary one, `j`)
and equal to some entry `k`. -/
theorem C2_local_eq_min_over_substrings (s t u : List Char) (hu : u <:+: t)
    (j : Nat) (hj : j ≤ t.length) :
    ∃ d, local_levenshtein_distance s t = some d ∧
      levenshtein_distance s u = some (levMatrix s u s.length u.length) ∧
      d ≤ levMatrix s u s.length u.length ∧
      (∃ v, v <:+: t ∧ levenshtein_distance s v = some d) ∧
      (∃ k, k ≤ t.length ∧ d = localLevMatrix s t s.length k) ∧
      d ≤ localLevMatrix s t s.length j := by
  rcases local_characterization s t with ⟨d, hd, ⟨v, hv, hvd⟩, hub, hex, hmin⟩
  refine ⟨d, hd, lev_eq_matrix s u, hub u hu, ⟨v, hv, ?_⟩, hex, hmin j hj⟩
  rw [lev_eq_matrix s v, hvd]

theorem C2_local_eq_min_over_substrings_witness :
    (['b'] <:+: ['a', 'b']) ∧ 0 ≤ List.length ['a', 'b'] ∧
    (∃ d, local_levenshtein_distance ['b'] ['a', 'b'] = some d ∧
      levenshtein_distance ['b'] ['b'] =
        some (levMatrix ['b'] ['b'] (List.length ['b']) (List.length ['b'])) ∧
      d ≤ levMatrix ['b'] ['b'] (List.length ['b']) (List.length ['b']) ∧
      (∃ v, v <:+: ['a', 'b'] ∧ levenshtein_distance ['b'] v = some d) ∧
      (∃ k, k ≤ List.length ['a', 'b'] ∧
        d = localLevMatrix ['b'] ['a', 'b'] (List.length ['b']) k) ∧
      d ≤ localLevMatrix ['b'] ['a', 'b'] (List.length ['b']) 0) :=
  ⟨⟨['a'], [], rfl⟩, by omega,
    C2_local_eq_min_over_substrings ['b'] ['a', 'b'] ['b']
      ⟨['a'], [], rfl⟩ 0 (by omega)⟩

/-- C3: both case-insensitive wrappers equal their base function applied to
the inputs with only the ASCII letters `A`-`Z` lowercased (per the spec's
`lowercase_ascii`) and every other codepoint unchanged. -/
theorem C3_ignore_ascii_case_is_fold_then_distance (a b : List Char) :
    levenshtein_distance_ignore_ascii_case a b =
      levenshtein_distance (a.map lowercase_ascii) (b.map lowercase_ascii) ∧
    local_levenshtein_distance_ignore_ascii_case a b =
      local_levenshtein_distance (a.map lowercase_ascii)
        (b.map lowercase_ascii) := by
  constructor
  · rw [levenshtein_distance_ignore_ascii_case, to_ascii_lowercase_eq_map,
      to_ascii_lowercase_eq_map]
  · rw [local_levenshtein_distance_ignore_ascii_case,
      to_ascii_lowercase_eq_map, to_ascii_lowercase_eq_map]

/-- C4: all four operations are total — modelling every panicking vector
index and `unwrap` in `Option`, each of them returns `some` on every pair of
inputs. -/
theorem C4_no_panics (s t : List Char) :
    (levenshtein_distance s t).isSome = true ∧
    (levenshtein_distance_ignore_ascii_case s t).isSome = true ∧
    (local_levenshtein_distance s t).isSome = true ∧
    (local_levenshtein_distance_ignore_ascii_case s t).isSome = true := by
  refine ⟨?_, ?_, ?_, ?_⟩
  · rw [lev_eq_matrix]
    rfl
  · rw [levenshtein_distance_ignore_ascii_case, lev_eq_matrix]
    rfl
  · rcases local_isSome s t with ⟨d, hd⟩
    rw [hd]
    rfl
  · rw [local_levenshtein_distance_ignore_ascii_case]
    rcases local_isSome (to_ascii_lowercase s) (to_ascii_lowercase t)
      with ⟨d, hd⟩
    rw [hd]
    rfl

/-- C5: `levenshtein_distance` is symmetric in its two arguments. -/
theorem C5_symmetric (a b : List Char) :
    levenshtein_distance a b = levenshtein_distance b a := by
  rw [lev_eq_matrix, lev_eq_matrix, levMatrix_symm]

/-- C6: the global distance is at least the absolute difference of the
codepoint counts and at most their maximum (hence at most their sum). -/
theorem C6_distance_bounds (a b : List Char) :
    ∃ d, levenshtein_distance a b = some d ∧
      ((a.length : Int) - (b.length : Int)).natAbs ≤ d ∧
      d ≤ max a.length b.length ∧
      d ≤ a.length + b.length := by
  refine ⟨_, lev_eq_matrix a b, ?_, ?_, ?_⟩
  · have := levMatrix_lower a b a.length b.length
    omega
  · exact levMatrix_le_max a b a.length b.length
  · have := levMatrix_le_max a b a.length b.length
    omega

/-- C7: the local distance never exceeds the codepoint count of `source`
(and, being a `Nat`, is non-negative). -/
theorem C7_local_le_source_length (s t : List Char) :
    ∃ d, local_levenshtein_distance s t = some d ∧ d ≤ s.length := by
  rcases local_characterization s t with ⟨d, hd, -, -, ⟨j, hj, hdj⟩, -⟩
  refine ⟨d, hd, ?_⟩
  rw [hdj]
  exact localLevMatrix_le_left s t s.length j

/-- C8: degenerate cases of the local distance — empty source gives `0` for
every target, and empty target gives the codepoint count of the source. -/
theorem C8_local_degenerate_cases (s t : List Char) :
    local_levenshtein_distance [] t = some 0 ∧
    local_levenshtein_distance s [] = some s.length := by
  constructor
  · simp [local_levenshtein_distance]
  · by_cases hs : s = []
    · subst hs
      simp [local_levenshtein_distance]
    · simp [local_levenshtein_distance, List.isEmpty_eq_false.mpr hs]

/-- C9: if the non-empty `source` occurs verbatim as a contiguous codepoint
substring of `target`, the local distance is `0`. -/
theorem C9_verbatim_substring_zero (s t : List Char) (hne : s ≠ [])
    (hsub : s <:+: t) : local_levenshtein_distance s t = some 0 := by
  rcases local_characterization s t with ⟨d, hd, -, -, -, hmin⟩
  obtain ⟨p, r, hpr⟩ := hsub
  have hlen : p.length + s.length ≤ t.length := by
    rw [← hpr]
    simp
  have hz := localLevMatrix_diag_zero s p r s.length (by omega)
  rw [← List.append_assoc, hpr] at hz
  have hle := hmin (p.length + s.length) hlen
  rw [hz] at hle
  have : d = 0 := by omega
  rw [hd, this]

theorem C9_verbatim_substring_zero_witness :
    (['a'] ≠ ([] : List Char)) ∧ (['a'] <:+: ['b', 'a']) ∧
    local_levenshtein_distance ['a'] ['b', 'a'] = some 0 :=
  ⟨by decide, ⟨['b'], [], rfl⟩,
    C9_verbatim_substring_zero ['a'] ['b', 'a'] (by decide)
      ⟨['b'], [], rfl⟩⟩

/-- C10: the local distance never exceeds the global one. -/
theorem C10_local_le_global (s t : List Char) :
    ∃ dl dg, local_levenshtein_distance s t = some dl ∧
      levenshtein_distance s t = some dg ∧ dl ≤ dg := by
  rcases local_characterization s t with ⟨d, hd, -, -, -, hmin⟩
  refine ⟨d, _, hd, lev_eq_matrix s t, ?_⟩
  have h1 := hmin t.length (by omega)
  have h2 := localLevMatrix_le_levMatrix s t s.length t.length
  omega

end Fuzzy
